import Mathlib

/-!
Verification of the ruzzle-solver core: a flattened grid-coordinate system
(`BoardIndex`), a fixed 4x4 grid container (`Board4x4`), a prefix trie
(`TrieNode`), and the depth-first backtracking solver (`solve` / `dfs`).
Each definition is a shallow embedding of the corresponding Rust item;
machine integers (`usize`) are modelled as `Nat` with explicit wrapping
modulo 2^64 where the source relies on wrapping arithmetic.
-/

namespace Ruzzle

/-- Width of `usize` arithmetic: the source uses `wrapping_sub`/`wrapping_add`
on `usize`, relying on the wrapped value being far out of bounds. -/
def USIZE : Nat := 2 ^ 64

/-- Rust `usize::wrapping_add` for operands below `2^64`. -/
def wrapping_add (a b : Nat) : Nat := (a + b) % USIZE

/-- Rust `usize::wrapping_sub` for operands below `2^64`. -/
def wrapping_sub (a b : Nat) : Nat := (a + USIZE - b) % USIZE

/-- The struct `BoardIndex<W, H>`: a flattened cell index of a `W`-by-`H` board
(board.rs). The struct stores only the flattened scalar. -/
structure BoardIndex (W H : Nat) where
  flattened : Nat
deriving DecidableEq, Repr

/-- Function `BoardIndex::all_indices_within_bounds` (board.rs): `(0..W*H)` as indices. -/
def BoardIndex.all_indices_within_bounds (W H : Nat) : List (BoardIndex W H) :=
  (List.range (W * H)).map (fun n => ⟨n⟩)

/-- Function `BoardIndex::from_xy` (board.rs): `flattened = x + W * y`, no bounds check. -/
def BoardIndex.from_xy {W H : Nat} (x y : Nat) : BoardIndex W H :=
  ⟨x + W * y⟩

/-- Function `BoardIndex::to_xy` (board.rs): `(flattened % W, flattened / W)`. -/
def BoardIndex.to_xy {W H : Nat} (idx : BoardIndex W H) : Nat × Nat :=
  (idx.flattened % W, idx.flattened / W)

/-- Function `BoardIndex::get_neighbouring` (board.rs): the eight wrapped candidate
offsets in the fixed order NW, N, NE, W, E, SW, S, SE, filtered to those with
both resulting coordinates in bounds, then rebuilt via `from_xy`. -/
def BoardIndex.get_neighbouring {W H : Nat} (idx : BoardIndex W H) :
    List (BoardIndex W H) :=
  let x := idx.to_xy.1
  let y := idx.to_xy.2
  (([ (wrapping_sub x 1, wrapping_sub y 1),
      (x, wrapping_sub y 1),
      (wrapping_add x 1, wrapping_sub y 1),
      (wrapping_sub x 1, y),
      (wrapping_add x 1, y),
      (wrapping_sub x 1, wrapping_add y 1),
      (x, wrapping_add y 1),
      (wrapping_add x 1, wrapping_add y 1) ] : List (Nat × Nat)).filter
    (fun p => decide (p.1 < W) && decide (p.2 < H))).map
    (fun p => BoardIndex.from_xy p.1 p.2)

/-- Alias `Index4x4 = BoardIndex<4, 4>` (board.rs). -/
abbrev Index4x4 := BoardIndex 4 4

/-- The struct `Board4x4<T>` (board.rs): a fixed array of 16 cells, modelled as the
list of cells in flat order. -/
structure Board4x4 (T : Type) where
  cells : List T
deriving DecidableEq, Repr

/-- Method `Board4x4::with_at` (board.rs): copy of the receiver with cell
`idx.flattened` replaced; the receiver is a value, never mutated. -/
def Board4x4.with_at {T : Type} (b : Board4x4 T) (v : T) (idx : Index4x4) :
    Board4x4 T :=
  ⟨b.cells.set idx.flattened v⟩

/-- Impl `Index<Index4x4> for Board4x4` (board.rs), 2-D indexing: `self.0[idx.flattened]`.
The Rust indexing panics out of range; this total model returns `default`
there, and is only ever applied in-range by the solver. -/
def Board4x4.cellAt {T : Type} [Inhabited T] (b : Board4x4 T) (idx : Index4x4) : T :=
  b.cells.getD idx.flattened default

/-- Impl `Index<Index4x4> for Board4x4` (board.rs) with the panic made explicit:
`none` exactly when the flat position is out of range. -/
def Board4x4.index_by_coordinate {T : Type} (b : Board4x4 T) (idx : Index4x4) :
    Option T :=
  b.cells.get? idx.flattened

/-- Impl `Index<usize> for Board4x4` (board.rs), 1-D indexing, with the panic made
explicit: `none` exactly when the flat scalar is out of range. -/
def Board4x4.index_by_flat {T : Type} (b : Board4x4 T) (n : Nat) : Option T :=
  b.cells.get? n

/-- Impl `From<&str> for Board4x4<char>` (board.rs): `chars.try_into().unwrap()`
succeeds, keeping the characters in order, exactly when there are 16 of them;
the panic of `unwrap` is modelled as `none`. -/
def boardFromString (s : List Char) : Option (Board4x4 Char) :=
  if s.length = 16 then some ⟨s⟩ else none

/-- Impl `From<u16> for Board4x4<bool>` (board.rs): most significant bit of the
16-bit integer maps to flat index 0, least significant to index 15. -/
def maskFromU16 (u : Nat) : Board4x4 Bool :=
  ⟨(List.range 16).map (fun n => ((u >>> (15 - n)) &&& 1) != 0)⟩

/-- Alias `RuzzleBoard = Board4x4<char>` (board.rs). -/
abbrev RuzzleBoard := Board4x4 Char

/-- Alias `BoardMask = Board4x4<bool>` (board.rs). -/
abbrev BoardMask := Board4x4 Bool

/-- The struct `TrieNode` (trie.rs): optional character label (`none` only at the root),
children, terminal flag. -/
inductive TrieNode : Type where
  | mk : Option Char → List TrieNode → Bool → TrieNode
deriving Repr

/-- The `ch` field of a `TrieNode`. -/
def TrieNode.ch : TrieNode → Option Char
  | .mk c _ _ => c

/-- The `children` field of a `TrieNode`. -/
def TrieNode.children : TrieNode → List TrieNode
  | .mk _ cs _ => cs

/-- The `is_terminal` field of a `TrieNode`. -/
def TrieNode.is_terminal : TrieNode → Bool
  | .mk _ _ t => t

/-- Constructor `TrieNode::from_char` (trie.rs). -/
def TrieNode.from_char (c : Char) : TrieNode := .mk (some c) [] false

/-- Constructor `TrieNode::new_root` (trie.rs). -/
def TrieNode.new_root : TrieNode := .mk none [] false

/-- Method `TrieNode::find_in_children` (trie.rs): first child labelled `key`. -/
def TrieNode.find_in_children (node : TrieNode) (key : Char) : Option TrieNode :=
  node.children.find? (fun c => c.ch == some key)

/-- In-place mutation of the first child labelled `h` (the effect of
`mut_find_in_children` followed by mutation in `add_word`): replace the first
matching child with `v`, leaving every other child in place. -/
def replaceFirstChild (h : Char) (v : TrieNode) : List TrieNode → List TrieNode
  | [] => []
  | c :: cs =>
    if c.ch == some h then v :: cs else c :: replaceFirstChild h v cs

/-- Method `TrieNode::add_word` (trie.rs): walk or create one child per character;
mark the final node terminal. Words are modelled as their character lists. -/
def TrieNode.add_word : TrieNode → List Char → TrieNode
  | node, [] => .mk node.ch node.children true
  | node, h :: t =>
    match node.find_in_children h with
    | some child =>
      .mk node.ch (replaceFirstChild h (child.add_word t) node.children)
        node.is_terminal
    | none =>
      .mk node.ch (node.children ++ [(TrieNode.from_char h).add_word t])
        node.is_terminal

/-- Method `TrieNode::contains_word` (trie.rs). -/
def TrieNode.contains_word : TrieNode → List Char → Bool
  | node, [] => node.is_terminal
  | node, h :: t =>
    match node.find_in_children h with
    | some child => child.contains_word t
    | none => false

/-- A trie built by inserting the given words, in order, into a fresh root. -/
def buildTrie (ws : List (List Char)) : TrieNode :=
  ws.foldl (fun n w => n.add_word w) TrieNode.new_root

mutual

/-- Method `TrieNode::node_count` (trie.rs): `1 +` sum over children. -/
def TrieNode.node_count : TrieNode → Nat
  | .mk _ cs _ => 1 + nodeCountList cs

/-- Sum of `node_count` over a list of children. -/
def nodeCountList : List TrieNode → Nat
  | [] => 0
  | c :: cs => c.node_count + nodeCountList cs

end

mutual

/-- Method `TrieNode::leaf_count` (trie.rs): `1` for a childless node, else the sum
over children. -/
def TrieNode.leaf_count : TrieNode → Nat
  | .mk _ [] _ => 1
  | .mk _ (c :: cs) _ => leafCountList (c :: cs)

/-- Sum of `leaf_count` over a list of children. -/
def leafCountList : List TrieNode → Nat
  | [] => 0
  | c :: cs => c.leaf_count + leafCountList cs

end

mutual

/-- Method `TrieNode::max_depth` (trie.rs): `1 + children.map(max_depth).max().unwrap_or(0)`. -/
def TrieNode.max_depth : TrieNode → Nat
  | .mk _ cs _ => 1 + maxDepthList cs

/-- Maximum of `max_depth` over a list of children, `0` when empty
(`Iterator::max` plus `unwrap_or(0)`). -/
def maxDepthList : List TrieNode → Nat
  | [] => 0
  | c :: cs => Nat.max c.max_depth (maxDepthList cs)

end

/-- Alias `Path = Vec<Index4x4>` (main.rs). -/
abbrev Path := List Index4x4

mutual

/-- Function `dfs` (main.rs): mark the cell, extend the path, record the path when the
trie node is terminal, then recurse into every unvisited neighbour whose
letter labels a child. The two `&mut` accumulators of the Rust version are
modelled by returning the list of paths this call appends, in order. -/
def dfs (node : TrieNode) (board : RuzzleBoard) (visited : BoardMask)
    (idx : Index4x4) (path : Path) : List Path :=
  let new_visited := visited.with_at true idx
  let path' := path ++ [idx]
  let neighbours :=
    idx.get_neighbouring.filter (fun n => !(new_visited.cellAt n))
  (if node.is_terminal then [path'] else []) ++
    dfsLoop node board new_visited path' neighbours
termination_by (sizeOf node + 1, 0)
decreasing_by
  apply Prod.Lex.left
  omega

/-- The `for n_idx in neighbours` loop inside `dfs` (main.rs). -/
def dfsLoop (node : TrieNode) (board : RuzzleBoard) (visited : BoardMask)
    (path' : Path) : List Index4x4 → List Path
  | [] => []
  | n :: ns =>
    (match h : node.find_in_children (board.cellAt n) with
     | some child => dfs child board visited n path'
     | none => []) ++ dfsLoop node board visited path' ns
termination_by ns => (sizeOf node, ns.length)
decreasing_by
  · apply Prod.Lex.left
    have hmem : child ∈ node.children := List.mem_of_find?_eq_some h
    have h1 : sizeOf child < sizeOf node.children := List.sizeOf_lt_of_mem hmem
    have h2 : sizeOf node.children < sizeOf node := by
      cases node with
      | mk c cs t => simp [TrieNode.children]; omega
    omega
  · apply Prod.Lex.right
    simp [List.length_cons]

end

/-- Function `solve` (main.rs): for every index in row-major order, if the root has a
child for that cell's letter, run `dfs` from there with a fresh all-false
mask and an empty path, accumulating results in order. -/
def solve (root : TrieNode) (board : RuzzleBoard) : List Path :=
  (BoardIndex.all_indices_within_bounds 4 4).foldl
    (fun out idx =>
      match root.find_in_children (board.cellAt idx) with
      | some child => out ++ dfs child board (maskFromU16 0) idx []
      | none => out)
    []

/-! Specification-side definitions, written from the spec's words rather
than from the source, for the claims that compare the two. -/

/-- The spec's 8-adjacency of two cells of the 4x4 grid: distinct cells whose
row-major coordinates each differ by at most one. -/
def specAdjacent (a b : Index4x4) : Bool :=
  decide (a ≠ b)
    && decide (max (a.flattened % 4) (b.flattened % 4)
        - min (a.flattened % 4) (b.flattened % 4) ≤ 1)
    && decide (max (a.flattened / 4) (b.flattened / 4)
        - min (a.flattened / 4) (b.flattened / 4) ≤ 1)

/-- Consecutive cells of the path are 8-adjacent in the spec's sense. -/
def adjChain : Path → Bool
  | [] => true
  | [_] => true
  | a :: b :: rest => specAdjacent a b && adjChain (b :: rest)

/-- The spec's description of a result: a sequence of pairwise-distinct,
in-bounds, consecutively 8-adjacent cells whose letters, in order, spell a
word stored in the trie. -/
def isWordPath (root : TrieNode) (board : RuzzleBoard) (p : Path) : Bool :=
  decide (∀ c ∈ p, c.flattened < 16) && decide p.Nodup && adjChain p
    && root.contains_word (p.map board.cellAt)

/-- The spec's description of the neighbour enumeration: the eight candidate
offsets, in the order NW, N, NE, W, E, SW, S, SE over exact integers, kept
when both coordinates land in bounds. -/
def neighbourSpec (idx : Index4x4) : List Index4x4 :=
  let x : Int := (idx.flattened % 4 : Nat)
  let y : Int := (idx.flattened / 4 : Nat)
  (([ (x - 1, y - 1), (x, y - 1), (x + 1, y - 1),
      (x - 1, y), (x + 1, y),
      (x - 1, y + 1), (x, y + 1), (x + 1, y + 1) ] : List (Int × Int)).filter
    (fun p => decide (0 ≤ p.1 ∧ p.1 < 4 ∧ 0 ≤ p.2 ∧ p.2 < 4))).map
    (fun p => ⟨(p.1 + 4 * p.2).toNat⟩)

/-- A corner cell of the 4x4 grid. -/
def isCornerCell (idx : Index4x4) : Bool :=
  decide ((idx.flattened % 4 = 0 ∨ idx.flattened % 4 = 3)
    ∧ (idx.flattened / 4 = 0 ∨ idx.flattened / 4 = 3))

/-- A border (edge or corner) cell of the 4x4 grid. -/
def isBorderCell (idx : Index4x4) : Bool :=
  decide (idx.flattened % 4 = 0 ∨ idx.flattened % 4 = 3
    ∨ idx.flattened / 4 = 0 ∨ idx.flattened / 4 = 3)

/-- The extensions a `dfs` call explores: `goodExt board node visited idx rest`
holds when, starting at `idx` with `visited` about to be marked at `idx`, the
cells of `rest` continue the walk neighbour-by-neighbour over unvisited cells
whose letters descend the trie, ending on a terminal node. -/
def goodExt (board : RuzzleBoard) : TrieNode → BoardMask → Index4x4 →
    List Index4x4 → Prop
  | node, _, _, [] => node.is_terminal = true
  | node, visited, idx, n :: rest =>
    n ∈ idx.get_neighbouring
    ∧ (visited.with_at true idx).cellAt n = false
    ∧ ∃ child, node.find_in_children (board.cellAt n) = some child
        ∧ goodExt board child (visited.with_at true idx) n rest

/-- A concrete 4x4 board holding the alphabet in row-major order, used to
instantiate theorems at concrete inputs. -/
def bAlpha : RuzzleBoard :=
  ⟨['a', 'b', 'c', 'd', 'e', 'f', 'g', 'h',
    'i', 'j', 'k', 'l', 'm', 'n', 'o', 'p']⟩

/-- For every in-bounds index, every enumerated neighbour is in bounds. -/
theorem neighbours_flattened_lt (i : Fin 16) :
    ∀ m ∈ (⟨i.val⟩ : Index4x4).get_neighbouring, m.flattened < 16 := by
  revert i
  decide

/-- C4: for x in [0,W) and y in [0,H), to_xy inverts from_xy exactly. -/
theorem C4_round_trip {W H : Nat} (x y : Nat) (hx : x < W) (hy : y < H) :
    (BoardIndex.from_xy x y : BoardIndex W H).to_xy = (x, y) := by
  have hW : 0 < W := lt_of_le_of_lt (Nat.zero_le x) hx
  unfold BoardIndex.from_xy BoardIndex.to_xy
  simp [Nat.add_mul_mod_self_left, Nat.mod_eq_of_lt hx,
    Nat.add_mul_div_left _ _ hW, Nat.div_eq_of_lt hx]

theorem C4_witness :
    2 < 4 ∧ 3 < 4 ∧ (BoardIndex.from_xy 2 3 : Index4x4).to_xy = (2, 3) :=
  ⟨by decide, by decide, C4_round_trip 2 3 (by decide) (by decide)⟩

/-- C5: with_at replaces exactly one cell. -/
theorem C5_with_at_frame {T : Type} (b : Board4x4 T) (v : T) (idx : Index4x4)
    (hidx : idx.flattened < 16) (hlen : b.cells.length = 16) :
    (b.with_at v idx).cells.get? idx.flattened = some v
    ∧ (∀ j : Nat, j ≠ idx.flattened →
        (b.with_at v idx).cells.get? j = b.cells.get? j)
    ∧ (b.with_at v idx).cells.length = b.cells.length := by
  refine ⟨?_, ?_, ?_⟩
  · exact List.get?_set_eq_of_lt v (by omega)
  · intro j hj
    exact List.get?_set_ne v b.cells (fun hh => hj hh.symm)
  · exact List.length_set b.cells idx.flattened v

theorem C5_witness :
    (bAlpha.with_at 'z' ⟨5⟩).cells.get? (⟨5⟩ : Index4x4).flattened = some 'z'
    ∧ (∀ j : Nat, j ≠ (⟨5⟩ : Index4x4).flattened →
        (bAlpha.with_at 'z' ⟨5⟩).cells.get? j = bAlpha.cells.get? j)
    ∧ (bAlpha.with_at 'z' ⟨5⟩).cells.length = bAlpha.cells.length :=
  C5_with_at_frame bAlpha 'z' ⟨5⟩ (by decide) (by decide)

/-- C7: grid construction succeeds, in order, iff exactly 16 characters. -/
theorem C7_board_construction (s : List Char) :
    (boardFromString s = some ⟨s⟩ ↔ s.length = 16)
    ∧ (boardFromString s = none ↔ s.length ≠ 16) := by
  unfold boardFromString
  by_cases h : s.length = 16 <;> simp [h]

/-- C8 counterexample: from_xy is public and unvalidated; at (0, 4) it
produces flat value 16, outside [0, 16). -/
theorem C8_counterexample :
    ¬ ((BoardIndex.from_xy 0 4 : Index4x4).flattened < 16) := by
  decide

/-- C8 amended: indices produced by from_xy on in-bounds coordinates, by
to_xy round-trips, by all_indices_within_bounds or by get_neighbouring are
in [0,16); coordinate indexing with them cannot fail; flat indexing fails
exactly at scalars ≥ 16. -/
theorem C8_index_invariant (x y : Fin 4) (n : Nat) (b : Board4x4 Char)
    (hb : b.cells.length = 16) :
    (BoardIndex.from_xy x.val y.val : Index4x4).flattened < 16
    ∧ (∀ idx ∈ BoardIndex.all_indices_within_bounds 4 4, idx.flattened < 16)
    ∧ (∀ idx : Index4x4, idx.flattened < 16 →
        ∀ m ∈ idx.get_neighbouring, m.flattened < 16)
    ∧ (∀ idx : Index4x4, idx.flattened < 16 →
        (BoardIndex.from_xy idx.to_xy.1 idx.to_xy.2 : Index4x4).flattened < 16)
    ∧ (∀ idx : Index4x4, idx.flattened < 16 →
        (b.index_by_coordinate idx).isSome = true)
    ∧ (b.index_by_flat n = none ↔ 16 ≤ n) := by
  refine ⟨?_, ?_, ?_, ?_, ?_, ?_⟩
  · have hx := x.isLt
    have hy := y.isLt
    simp only [BoardIndex.from_xy]
    omega
  · intro idx hidx
    rw [BoardIndex.all_indices_within_bounds] at hidx
    obtain ⟨m, hm, rfl⟩ := List.mem_map.mp hidx
    exact List.mem_range.mp hm
  · intro idx hidx m hm
    exact neighbours_flattened_lt ⟨idx.flattened, hidx⟩ m hm
  · intro idx hidx
    simp only [BoardIndex.from_xy, BoardIndex.to_xy]
    omega
  · intro idx hidx
    rw [Board4x4.index_by_coordinate, List.get?_eq_get (by omega)]
    rfl
  · rw [Board4x4.index_by_flat, List.get?_eq_none, hb]

theorem C8_witness :
    ((BoardIndex.from_xy (0 : Fin 4).val (0 : Fin 4).val : Index4x4).flattened < 16
    ∧ (∀ idx ∈ BoardIndex.all_indices_within_bounds 4 4, idx.flattened < 16)
    ∧ (∀ idx : Index4x4, idx.flattened < 16 →
        ∀ m ∈ idx.get_neighbouring, m.flattened < 16)
    ∧ (∀ idx : Index4x4, idx.flattened < 16 →
        (BoardIndex.from_xy idx.to_xy.1 idx.to_xy.2 : Index4x4).flattened < 16)
    ∧ (∀ idx : Index4x4, idx.flattened < 16 →
        (bAlpha.index_by_coordinate idx).isSome = true)
    ∧ (bAlpha.index_by_flat 20 = none ↔ 16 ≤ 20)) :=
  C8_index_invariant 0 0 20 bAlpha (by decide)

/-- C3: on the 4x4 board each index's neighbour enumeration equals the
spec's (order included), is duplicate-free, in bounds, excludes the origin,
and has length 3, 5 or 8 by corner, border or interior position. -/
theorem C3_neighbour_enumeration (i : Fin 16) :
    (⟨i.val⟩ : Index4x4).get_neighbouring = neighbourSpec ⟨i.val⟩
    ∧ (⟨i.val⟩ : Index4x4).get_neighbouring.Nodup
    ∧ (∀ m ∈ (⟨i.val⟩ : Index4x4).get_neighbouring, m.flattened < 16)
    ∧ (⟨i.val⟩ : Index4x4) ∉ (⟨i.val⟩ : Index4x4).get_neighbouring
    ∧ (⟨i.val⟩ : Index4x4).get_neighbouring.length =
        (if isCornerCell ⟨i.val⟩ then 3
         else if isBorderCell ⟨i.val⟩ then 5 else 8) := by
  revert i
  decide

/-- C9: the statistics of the trie of rust, rusty, trie, tree. -/
theorem C9_trie_statistics :
    (buildTrie [['r', 'u', 's', 't'], ['r', 'u', 's', 't', 'y'],
      ['t', 'r', 'i', 'e'], ['t', 'r', 'e', 'e']]).node_count = 12
    ∧ (buildTrie [['r', 'u', 's', 't'], ['r', 'u', 's', 't', 'y'],
      ['t', 'r', 'i', 'e'], ['t', 'r', 'e', 'e']]).leaf_count = 3
    ∧ (buildTrie [['r', 'u', 's', 't'], ['r', 'u', 's', 't', 'y'],
      ['t', 'r', 'i', 'e'], ['t', 'r', 'e', 'e']]).max_depth = 6 := by
  decide

/-- Projections of an explicit node. -/
theorem TrieNode.children_mk (a : Option Char) (b : List TrieNode) (c : Bool) :
    (TrieNode.mk a b c).children = b := rfl

theorem TrieNode.ch_mk (a : Option Char) (b : List TrieNode) (c : Bool) :
    (TrieNode.mk a b c).ch = a := rfl

theorem TrieNode.is_terminal_mk (a : Option Char) (b : List TrieNode) (c : Bool) :
    (TrieNode.mk a b c).is_terminal = c := rfl

/-- add_word never changes a node's character label. -/
theorem TrieNode.ch_add_word (node : TrieNode) (w : List Char) :
    (node.add_word w).ch = node.ch := by
  cases w with
  | nil => rfl
  | cons h t =>
    cases hf : node.find_in_children h <;>
      simp [TrieNode.add_word, hf, TrieNode.ch]

/-- Inserting the empty word only sets the terminal flag. -/
theorem TrieNode.children_add_word_nil (node : TrieNode) :
    (node.add_word []).children = node.children := rfl

theorem TrieNode.is_terminal_add_word_nil (node : TrieNode) :
    (node.add_word []).is_terminal = true := rfl

/-- Inserting a nonempty word leaves the receiving node's flag alone. -/
theorem TrieNode.is_terminal_add_word_cons (node : TrieNode) (h : Char)
    (t : List Char) :
    (node.add_word (h :: t)).is_terminal = node.is_terminal := by
  cases hf : node.find_in_children h <;>
    simp [TrieNode.add_word, hf, TrieNode.is_terminal]

/-- Replacing the first child labelled k with a node labelled k keeps it the
first child found under label k. -/
theorem find?_replaceFirstChild_same (k : Char) (v : TrieNode)
    (hv : v.ch = some k) (cs : List TrieNode)
    (hfound : (cs.find? (fun c => c.ch == some k)).isSome = true) :
    (replaceFirstChild k v cs).find? (fun c => c.ch == some k) = some v := by
  induction cs with
  | nil => simp [List.find?] at hfound
  | cons a as ih =>
    cases ha : (a.ch == some k) with
    | true =>
      simp [replaceFirstChild, ha, List.find?_cons, hv]
    | false =>
      have hfound' : (as.find? (fun c => c.ch == some k)).isSome = true := by
        simpa [List.find?_cons, ha] using hfound
      simp [replaceFirstChild, ha, List.find?_cons, ih hfound']

/-- Under a different label the replacement is invisible to find?. -/
theorem find?_replaceFirstChild_ne (k k' : Char) (hk : k' ≠ k) (v : TrieNode)
    (hv : v.ch = some k) (cs : List TrieNode) :
    (replaceFirstChild k v cs).find? (fun c => c.ch == some k') =
      cs.find? (fun c => c.ch == some k') := by
  induction cs with
  | nil => rfl
  | cons a as ih =>
    cases ha : (a.ch == some k) with
    | true =>
      have ha' : a.ch = some k := by simpa using ha
      have hv' : (v.ch == some k') = false := by
        simp [hv]
        exact fun hh => hk hh.symm
      have ha'' : (a.ch == some k') = false := by
        simp [ha']
        exact fun hh => hk hh.symm
      simp [replaceFirstChild, ha, List.find?_cons, hv', ha'']
    | false =>
      simp [replaceFirstChild, ha, List.find?_cons, ih]

/-- Looking up the inserted head character finds the updated or new child. -/
theorem find_in_children_add_word_same (node : TrieNode) (h : Char)
    (t : List Char) :
    (node.add_word (h :: t)).find_in_children h =
      some ((match node.find_in_children h with
             | some c => c
             | none => TrieNode.from_char h).add_word t) := by
  cases hf : node.find_in_children h with
  | some c =>
    have hc : c.ch = some h := by
      have := List.find?_some hf
      simpa using this
    have hch : (c.add_word t).ch = some h := by
      rw [TrieNode.ch_add_word, hc]
    have hadd : node.add_word (h :: t) =
        .mk node.ch (replaceFirstChild h (c.add_word t) node.children)
          node.is_terminal := by
      simp [TrieNode.add_word, hf]
    rw [TrieNode.find_in_children, hadd, TrieNode.children_mk]
    exact find?_replaceFirstChild_same h (c.add_word t) hch node.children
      (by rw [TrieNode.find_in_children] at hf; simp [hf])
  | none =>
    have hch : ((TrieNode.from_char h).add_word t).ch = some h := by
      rw [TrieNode.ch_add_word]; rfl
    have hadd : node.add_word (h :: t) =
        .mk node.ch (node.children ++ [(TrieNode.from_char h).add_word t])
          node.is_terminal := by
      simp [TrieNode.add_word, hf]
    rw [TrieNode.find_in_children, hadd, TrieNode.children_mk]
    rw [List.find?_append]
    rw [TrieNode.find_in_children] at hf
    rw [hf]
    simp [List.find?, hch]

/-- Looking up any other character is unchanged by the insertion. -/
theorem find_in_children_add_word_ne (node : TrieNode) (h h' : Char)
    (hne : h' ≠ h) (t : List Char) :
    (node.add_word (h :: t)).find_in_children h' =
      node.find_in_children h' := by
  cases hf : node.find_in_children h with
  | some c =>
    have hc : c.ch = some h := by
      have := List.find?_some hf
      simpa using this
    have hch : (c.add_word t).ch = some h := by
      rw [TrieNode.ch_add_word, hc]
    have hadd : node.add_word (h :: t) =
        .mk node.ch (replaceFirstChild h (c.add_word t) node.children)
          node.is_terminal := by
      simp [TrieNode.add_word, hf]
    rw [TrieNode.find_in_children, hadd, TrieNode.children_mk]
    rw [TrieNode.find_in_children]
    exact find?_replaceFirstChild_ne h h' hne (c.add_word t) hch node.children
  | none =>
    have hch : ((TrieNode.from_char h).add_word t).ch = some h := by
      rw [TrieNode.ch_add_word]; rfl
    have hch' : (((TrieNode.from_char h).add_word t).ch == some h') = false := by
      simp [hch]
      exact fun hh => hne hh.symm
    have hadd : node.add_word (h :: t) =
        .mk node.ch (node.children ++ [(TrieNode.from_char h).add_word t])
          node.is_terminal := by
      simp [TrieNode.add_word, hf]
    rw [TrieNode.find_in_children, hadd, TrieNode.children_mk]
    rw [List.find?_append]
    rw [TrieNode.find_in_children]
    simp [List.find?, hch']

/-- A fresh single-character node contains no word. -/
theorem contains_word_from_char (h : Char) (w : List Char) :
    (TrieNode.from_char h).contains_word w = false := by
  cases w with
  | nil => rfl
  | cons a t =>
    simp [TrieNode.contains_word, TrieNode.find_in_children,
      TrieNode.from_char, TrieNode.children, List.find?]

/-- A fresh root contains no word. -/
theorem contains_word_new_root (w : List Char) :
    TrieNode.new_root.contains_word w = false := by
  cases w with
  | nil => rfl
  | cons a t =>
    simp [TrieNode.contains_word, TrieNode.find_in_children,
      TrieNode.new_root, TrieNode.children, List.find?]

/-- The key insertion lemma: after add_word w, exactly the word w is newly
contained, and every other membership answer is untouched. -/
theorem contains_word_add_word (w : List Char) :
    ∀ (node : TrieNode) (w' : List Char),
      (node.add_word w).contains_word w' =
        (node.contains_word w' || decide (w' = w)) := by
  induction w with
  | nil =>
    intro node w'
    cases w' with
    | nil =>
      simp [TrieNode.contains_word, TrieNode.is_terminal_add_word_nil]
    | cons h' t' =>
      have : (node.add_word []).find_in_children h' = node.find_in_children h' := by
        rw [TrieNode.find_in_children, TrieNode.find_in_children,
          TrieNode.children_add_word_nil]
      rw [TrieNode.contains_word, TrieNode.contains_word, this]
      cases node.find_in_children h' <;> simp
  | cons h t ih =>
    intro node w'
    cases w' with
    | nil =>
      rw [TrieNode.contains_word, TrieNode.contains_word,
        TrieNode.is_terminal_add_word_cons]
      simp
    | cons h' t' =>
      by_cases hh : h' = h
      · subst hh
        rw [TrieNode.contains_word, find_in_children_add_word_same]
        cases hf : node.find_in_children h' with
        | some c =>
          rw [TrieNode.contains_word, hf]
          simp only [hf]
          rw [ih c t']
          simp [List.cons_eq_cons]
        | none =>
          rw [TrieNode.contains_word, hf]
          simp only [hf]
          rw [ih (TrieNode.from_char h') t', contains_word_from_char]
          simp [List.cons_eq_cons]
      · rw [TrieNode.contains_word, find_in_children_add_word_ne node h h' hh,
          TrieNode.contains_word]
        have : decide (h' :: t' = h :: t) = false := by
          simp [List.cons_eq_cons, hh]
        rw [this]
        cases node.find_in_children h' <;> simp

/-- Folding insertions: membership accumulates across the word list. -/
theorem contains_word_foldl (ws : List (List Char)) :
    ∀ (acc : TrieNode) (w : List Char),
      (ws.foldl (fun n ww => n.add_word ww) acc).contains_word w =
        (acc.contains_word w || decide (w ∈ ws)) := by
  induction ws with
  | nil => intro acc w; simp
  | cons a as ih =>
    intro acc w
    rw [List.foldl_cons, ih, contains_word_add_word]
    by_cases hw : w = a <;> simp [hw, List.mem_cons, Bool.or_assoc]

/-- C2: a trie built by insertions contains exactly the inserted words. -/
theorem C2_trie_exact_membership (ws : List (List Char)) (w : List Char) :
    (buildTrie ws).contains_word w = true ↔ w ∈ ws := by
  rw [buildTrie, contains_word_foldl, contains_word_new_root]
  simp

/-- with_at never changes the number of cells. -/
theorem length_with_at {T : Type} (b : Board4x4 T) (v : T) (idx : Index4x4) :
    (b.with_at v idx).cells.length = b.cells.length :=
  List.length_set b.cells idx.flattened v

/-- A lookup in a list of falses is false. -/
theorem getD_false_of_all_false (l : List Bool) (hl : ∀ x ∈ l, x = false)
    (n : Nat) : l.getD n false = false := by
  rw [List.getD_eq_get?]
  cases h : l.get? n with
  | none => rfl
  | some b =>
    have hb : b ∈ l := List.get?_mem h
    simp [hl b hb]

/-- The fresh mask solve starts from answers false everywhere. -/
theorem cellAt_maskFromU16_zero (c : Index4x4) :
    (maskFromU16 0).cellAt c = false := by
  rw [Board4x4.cellAt]
  exact getD_false_of_all_false _ (by decide) c.flattened

/-- Marking one in-bounds cell of a 16-cell mask: a lookup afterwards is the
old lookup, or true exactly at the marked cell. -/
theorem cellAt_with_at_mask (m : BoardMask) (hm : m.cells.length = 16)
    (i : Index4x4) (hi : i.flattened < 16) (c : Index4x4) :
    (m.with_at true i).cellAt c = (m.cellAt c || decide (c = i)) := by
  rw [Board4x4.cellAt, Board4x4.cellAt, Board4x4.with_at]
  by_cases hc : c.flattened = i.flattened
  · have hci : c = i := by cases c; cases i; simpa using hc
    rw [hc, List.getD_eq_get?, List.get?_set_eq_of_lt true (by omega)]
    simp [hci]
  · have hci : ¬ (c = i) := fun hh => hc (by rw [hh])
    rw [List.getD_eq_get?, List.getD_eq_get?,
      List.get?_set_ne true m.cells (fun hh => hc hh.symm)]
    simp [hci]

/-- Membership in the neighbour loop of dfs: some listed neighbour's letter
labels a child whose recursive call produced the path. -/
theorem dfsLoop_mem (node : TrieNode) (board : RuzzleBoard)
    (visited : BoardMask) (path' : Path) (ns : List Index4x4) (q : Path) :
    q ∈ dfsLoop node board visited path' ns ↔
      ∃ n, n ∈ ns ∧ ∃ child,
        node.find_in_children (board.cellAt n) = some child
        ∧ q ∈ dfs child board visited n path' := by
  induction ns with
  | nil =>
    rw [dfsLoop]
    simp
  | cons n ns ih =>
    rw [dfsLoop, List.mem_append, ih]
    constructor
    · rintro (hq | ⟨m, hm, child, hfind, hq⟩)
      · revert hq
        split
        · rename_i child heq
          intro hq
          exact ⟨n, List.mem_cons_self n ns, child, heq, hq⟩
        · intro hq
          simp at hq
      · exact ⟨m, List.mem_cons_of_mem n hm, child, hfind, hq⟩
    · rintro ⟨m, hm, child, hfind, hq⟩
      rcases List.mem_cons.mp hm with rfl | hm'
      · left
        split
        · rename_i child' heq
          rw [hfind] at heq
          rw [Option.some.injEq] at heq
          rw [← heq]
          exact hq
        · rename_i heq
          rw [hfind] at heq
          cases heq
      · right
        exact ⟨m, hm', child, hfind, hq⟩

/-- Membership in a dfs call: the produced paths are exactly the current
path, then the current cell, then a good extension. -/
theorem dfs_mem (board : RuzzleBoard) (node : TrieNode) (visited : BoardMask)
    (idx : Index4x4) (path : Path) (q : Path) :
    q ∈ dfs node board visited idx path ↔
      ∃ rest, q = path ++ idx :: rest ∧ goodExt board node visited idx rest := by
  rw [dfs, List.mem_append, dfsLoop_mem]
  constructor
  · rintro (hterm | ⟨n, hn, child, hfind, hq⟩)
    · refine ⟨[], ?_, ?_⟩
      · rcases Bool.eq_false_or_eq_true node.is_terminal with hb | hb <;>
          simp [hb] at hterm ⊢
        exact hterm
      · rw [goodExt]
        rcases Bool.eq_false_or_eq_true node.is_terminal with hb | hb <;>
          simp [hb] at hterm ⊢
    · have hfind' : node.children.find? (fun c => c.ch == some (board.cellAt n))
          = some child := by
        rw [TrieNode.find_in_children] at hfind
        exact hfind
      obtain ⟨rest, rfl, hext⟩ :=
        (dfs_mem board child (visited.with_at true idx) n (path ++ [idx]) q).mp hq
      refine ⟨n :: rest, by simp, ?_⟩
      rw [goodExt]
      have hflt := List.mem_filter.mp hn
      refine ⟨hflt.1, ?_, child, hfind, hext⟩
      simpa using hflt.2
  · rintro ⟨rest, rfl, hext⟩
    cases rest with
    | nil =>
      left
      rw [goodExt] at hext
      simp [hext]
    | cons n rest' =>
      right
      rw [goodExt] at hext
      obtain ⟨hadj, hunv, child, hfind, hext'⟩ := hext
      have hfind' : node.children.find? (fun c => c.ch == some (board.cellAt n))
          = some child := by
        rw [TrieNode.find_in_children] at hfind
        exact hfind
      refine ⟨n, List.mem_filter.mpr ⟨hadj, by simp [hunv]⟩, child, hfind, ?_⟩
      exact (dfs_mem board child (visited.with_at true idx) n (path ++ [idx])
        (path ++ idx :: n :: rest')).mpr ⟨rest', by simp, hext'⟩
termination_by sizeOf node
decreasing_by
  all_goals
    have hmem : child ∈ node.children := List.mem_of_find?_eq_some hfind'
    have h1 : sizeOf child < sizeOf node.children := List.sizeOf_lt_of_mem hmem
    have h2 : sizeOf node.children < sizeOf node := by
      cases node with
      | mk c cs t => simp [TrieNode.children]; omega
    omega

/-- On in-bounds cells, being enumerated as a neighbour is exactly the spec's
8-adjacency. -/
theorem mem_neighbouring_iff_specAdjacent (a b : Fin 16) :
    ((⟨b.val⟩ : Index4x4) ∈ (⟨a.val⟩ : Index4x4).get_neighbouring) ↔
      specAdjacent ⟨a.val⟩ ⟨b.val⟩ = true := by
  revert a b
  decide

/-- Every cell of a neighbour chain starting in bounds stays in bounds. -/
theorem chain_neighbours_bounds (rest : List Index4x4) :
    ∀ (idx : Index4x4), idx.flattened < 16 →
      List.Chain (fun a b => b ∈ a.get_neighbouring) idx rest →
      ∀ c ∈ rest, c.flattened < 16 := by
  induction rest with
  | nil =>
    intro idx _ _ c hc
    simp at hc
  | cons n rest' ih =>
    intro idx hidx hch c hc
    rw [List.chain_cons] at hch
    have hn : n.flattened < 16 :=
      neighbours_flattened_lt ⟨idx.flattened, hidx⟩ n hch.1
    rcases List.mem_cons.mp hc with rfl | hc'
    · exact hn
    · exact ih n hn hch.2 c hc'

/-- For in-bounds cells the neighbour chain is the spec's adjacency chain. -/
theorem chain_iff_adjChain (rest : List Index4x4) :
    ∀ (idx : Index4x4), idx.flattened < 16 →
      (∀ c ∈ rest, c.flattened < 16) →
      (List.Chain (fun a b => b ∈ a.get_neighbouring) idx rest ↔
        adjChain (idx :: rest) = true) := by
  induction rest with
  | nil =>
    intro idx _ _
    simp [adjChain]
  | cons n rest' ih =>
    intro idx hidx hb
    have hn : n.flattened < 16 := hb n (List.mem_cons_self n rest')
    have h2 : (n ∈ idx.get_neighbouring) ↔ specAdjacent idx n = true :=
      mem_neighbouring_iff_specAdjacent ⟨idx.flattened, hidx⟩ ⟨n.flattened, hn⟩
    rw [List.chain_cons]
    simp only [adjChain, Bool.and_eq_true]
    rw [h2, ih n hn (fun c hc => hb c (List.mem_cons_of_mem n hc))]

/-- Unfolding a good extension into its independent parts: adjacency chain,
no repeats, freshness for the incoming mask, and trie membership of the
extension's letters from the current node. -/
theorem goodExt_iff (board : RuzzleBoard) (rest : List Index4x4) :
    ∀ (node : TrieNode) (visited : BoardMask) (idx : Index4x4),
      visited.cells.length = 16 → idx.flattened < 16 →
      (goodExt board node visited idx rest ↔
        (List.Chain (fun a b => b ∈ a.get_neighbouring) idx rest
         ∧ (idx :: rest).Nodup
         ∧ (∀ c ∈ rest, visited.cellAt c = false)
         ∧ node.contains_word (rest.map board.cellAt) = true)) := by
  induction rest with
  | nil =>
    intro node visited idx hlen hidx
    rw [goodExt]
    simp [TrieNode.contains_word]
  | cons n rest' ih =>
    intro node visited idx hlen hidx
    rw [goodExt]
    have hlen' : (visited.with_at true idx).cells.length = 16 := by
      rw [length_with_at]
      exact hlen
    constructor
    · rintro ⟨hadj, hfresh, child, hfind, hext⟩
      have hn : n.flattened < 16 :=
        neighbours_flattened_lt ⟨idx.flattened, hidx⟩ n hadj
      rw [cellAt_with_at_mask visited hlen idx hidx n,
        Bool.or_eq_false_iff] at hfresh
      obtain ⟨hfv, hne⟩ := hfresh
      have hne' : n ≠ idx := by simpa using hne
      obtain ⟨hch, hnd, hfr, hcw⟩ :=
        (ih child (visited.with_at true idx) n hlen' hn).mp hext
      have hfr' : ∀ c ∈ rest', visited.cellAt c = false ∧ c ≠ idx := by
        intro c hc
        have hcc := hfr c hc
        rw [cellAt_with_at_mask visited hlen idx hidx c,
          Bool.or_eq_false_iff] at hcc
        exact ⟨hcc.1, by simpa using hcc.2⟩
      refine ⟨?_, ?_, ?_, ?_⟩
      · rw [List.chain_cons]
        exact ⟨hadj, hch⟩
      · rw [List.nodup_cons]
        refine ⟨?_, hnd⟩
        intro hmem
        rcases List.mem_cons.mp hmem with h1 | h1
        · exact hne' h1.symm
        · exact (hfr' idx h1).2 rfl
      · intro c hc
        rcases List.mem_cons.mp hc with rfl | hc'
        · exact hfv
        · exact (hfr' c hc').1
      · rw [List.map_cons, TrieNode.contains_word, hfind]
        exact hcw
    · rintro ⟨hch, hnd, hfr, hcw⟩
      rw [List.chain_cons] at hch
      obtain ⟨hadj, hch'⟩ := hch
      have hn : n.flattened < 16 :=
        neighbours_flattened_lt ⟨idx.flattened, hidx⟩ n hadj
      rw [List.nodup_cons] at hnd
      obtain ⟨hidxnot, hnd'⟩ := hnd
      rw [List.map_cons, TrieNode.contains_word] at hcw
      cases hfind : node.find_in_children (board.cellAt n) with
      | none =>
        rw [hfind] at hcw
        simp at hcw
      | some child =>
        rw [hfind] at hcw
        refine ⟨hadj, ?_, child, rfl, ?_⟩
        · rw [cellAt_with_at_mask visited hlen idx hidx n,
            Bool.or_eq_false_iff]
          refine ⟨hfr n (List.mem_cons_self n rest'), ?_⟩
          simp only [decide_eq_false_iff_not]
          intro hh
          exact hidxnot (hh ▸ List.mem_cons_self n rest')
        · apply (ih child (visited.with_at true idx) n hlen' hn).mpr
          refine ⟨hch', hnd', ?_, hcw⟩
          intro c hc
          rw [cellAt_with_at_mask visited hlen idx hidx c,
            Bool.or_eq_false_iff]
          refine ⟨hfr c (List.mem_cons_of_mem n hc), ?_⟩
          simp only [decide_eq_false_iff_not]
          intro hh
          exact hidxnot (hh ▸ List.mem_cons_of_mem n hc)

/-- A duplicate-free list of in-bounds cells has at most 16 entries. -/
theorem nodup_bounded_length_le (p : Path) (hnd : p.Nodup)
    (hb : ∀ c ∈ p, c.flattened < 16) : p.length ≤ 16 := by
  have hinj : ∀ x ∈ p, ∀ y ∈ p,
      (fun c : Index4x4 => c.flattened) x = (fun c : Index4x4 => c.flattened) y
        → x = y := by
    intro x _ y _ h
    cases x
    cases y
    simpa using h
  have hmapnd : (p.map (fun c => c.flattened)).Nodup :=
    List.Nodup.map_on hinj hnd
  have hsub : (p.map (fun c => c.flattened)).toFinset ⊆ Finset.range 16 := by
    intro x hx
    rw [List.mem_toFinset] at hx
    obtain ⟨c, hc, rfl⟩ := List.mem_map.mp hx
    rw [Finset.mem_range]
    exact hb c hc
  have hcard := Finset.card_le_card hsub
  rw [List.toFinset_card_of_nodup hmapnd, Finset.card_range] at hcard
  simpa using hcard

/-- Membership in the solve accumulation: a path comes from the dfs of some
starting cell whose letter labels a root child. -/
theorem solve_mem (root : TrieNode) (board : RuzzleBoard) (q : Path) :
    q ∈ solve root board ↔
      ∃ idx, idx ∈ BoardIndex.all_indices_within_bounds 4 4 ∧ ∃ child,
        root.find_in_children (board.cellAt idx) = some child
        ∧ q ∈ dfs child board (maskFromU16 0) idx [] := by
  have key : ∀ (l : List Index4x4) (acc : List Path),
      (q ∈ l.foldl (fun out idx =>
        match root.find_in_children (board.cellAt idx) with
        | some child => out ++ dfs child board (maskFromU16 0) idx []
        | none => out) acc)
      ↔ (q ∈ acc ∨ ∃ idx, idx ∈ l ∧ ∃ child,
          root.find_in_children (board.cellAt idx) = some child
          ∧ q ∈ dfs child board (maskFromU16 0) idx []) := by
    intro l
    induction l with
    | nil =>
      intro acc
      simp
    | cons i l ih =>
      intro acc
      rw [List.foldl_cons, ih]
      cases hf : root.find_in_children (board.cellAt i) with
      | some child =>
        simp only [hf]
        rw [List.mem_append]
        constructor
        · rintro ((h | h) | h)
          · exact Or.inl h
          · exact Or.inr ⟨i, List.mem_cons_self i l, child, hf, h⟩
          · obtain ⟨idx, hidx, rest⟩ := h
            exact Or.inr ⟨idx, List.mem_cons_of_mem i hidx, rest⟩
        · rintro (h | ⟨idx, hidx, child', hf', hq⟩)
          · exact Or.inl (Or.inl h)
          · rcases List.mem_cons.mp hidx with rfl | hidx'
            · rw [hf, Option.some.injEq] at hf'
              rw [← hf'] at hq
              exact Or.inl (Or.inr hq)
            · exact Or.inr ⟨idx, hidx', child', hf', hq⟩
      | none =>
        simp only [hf]
        constructor
        · rintro (h | h)
          · exact Or.inl h
          · obtain ⟨idx, hidx, rest⟩ := h
            exact Or.inr ⟨idx, List.mem_cons_of_mem i hidx, rest⟩
        · rintro (h | ⟨idx, hidx, child', hf', hq⟩)
          · exact Or.inl h
          · rcases List.mem_cons.mp hidx with rfl | hidx'
            · rw [hf] at hf'
              cases hf'
            · exact Or.inr ⟨idx, hidx', child', hf', hq⟩
  rw [solve, key]
  simp

/-- The central characterisation, for any trie and any board: solve returns
exactly the nonempty spec word-paths. -/
theorem solve_mem_iff_wordPath (root : TrieNode) (board : RuzzleBoard)
    (q : Path) :
    q ∈ solve root board ↔ (q ≠ [] ∧ isWordPath root board q = true) := by
  rw [solve_mem]
  constructor
  · rintro ⟨idx, hidx, child, hfind, hq⟩
    have hidx16 : idx.flattened < 16 := by
      rw [BoardIndex.all_indices_within_bounds] at hidx
      obtain ⟨m, hm, rfl⟩ := List.mem_map.mp hidx
      exact List.mem_range.mp hm
    obtain ⟨rest, rfl, hext⟩ :=
      (dfs_mem board child (maskFromU16 0) idx [] q).mp hq
    obtain ⟨hch, hnd, _, hcw⟩ :=
      (goodExt_iff board rest child (maskFromU16 0) idx (by decide) hidx16).mp
        hext
    have hbounds : ∀ c ∈ idx :: rest, c.flattened < 16 := by
      intro c hc
      rcases List.mem_cons.mp hc with rfl | hc'
      · exact hidx16
      · exact chain_neighbours_bounds rest idx hidx16 hch c hc'
    simp only [List.nil_append]
    refine ⟨by simp, ?_⟩
    rw [isWordPath]
    have h1 : decide (∀ c ∈ (idx :: rest : Path), c.flattened < 16) = true := by
      rw [decide_eq_true_eq]
      exact hbounds
    have h2 : decide (idx :: rest : Path).Nodup = true := by
      rw [decide_eq_true_eq]
      exact hnd
    have h3 : adjChain (idx :: rest) = true :=
      (chain_iff_adjChain rest idx hidx16
        (fun c hc => hbounds c (List.mem_cons_of_mem idx hc))).mp hch
    have h4 : root.contains_word ((idx :: rest).map board.cellAt) = true := by
      rw [List.map_cons, TrieNode.contains_word, hfind]
      exact hcw
    rw [h1, h2, h3, h4]
    rfl
  · rintro ⟨hne, hwp⟩
    cases q with
    | nil => exact absurd rfl hne
    | cons idx rest =>
      rw [isWordPath] at hwp
      simp only [Bool.and_eq_true, decide_eq_true_eq] at hwp
      obtain ⟨⟨⟨hbounds, hnd⟩, hadj⟩, hcw⟩ := hwp
      have hidx16 : idx.flattened < 16 :=
        hbounds idx (List.mem_cons_self idx rest)
      have hch : List.Chain (fun a b => b ∈ a.get_neighbouring) idx rest :=
        (chain_iff_adjChain rest idx hidx16
          (fun c hc => hbounds c (List.mem_cons_of_mem idx hc))).mpr hadj
      rw [List.map_cons, TrieNode.contains_word] at hcw
      cases hfind : root.find_in_children (board.cellAt idx) with
      | none =>
        rw [hfind] at hcw
        simp at hcw
      | some child =>
        rw [hfind] at hcw
        refine ⟨idx, ?_, child, hfind, ?_⟩
        · rw [BoardIndex.all_indices_within_bounds]
          exact List.mem_map.mpr
            ⟨idx.flattened, List.mem_range.mpr hidx16, rfl⟩
        · apply (dfs_mem board child (maskFromU16 0) idx [] (idx :: rest)).mpr
          refine ⟨rest, by simp, ?_⟩
          apply (goodExt_iff board rest child (maskFromU16 0) idx (by decide)
            hidx16).mpr
          refine ⟨hch, hnd, ?_, hcw⟩
          intro c _
          exact cellAt_maskFromU16_zero c

/-- C1 (amended: nonempty sequences): for every trie built by insertions and
every 4x4 grid, solve returns exactly the nonempty sequences of pairwise
distinct, in-bounds, consecutively 8-adjacent cells whose letters spell a
word the trie contains; every such path is a result and nothing else is. -/
theorem C1_solve_exact_paths (ws : List (List Char)) (board : RuzzleBoard)
    (hb : board.cells.length = 16) (p : Path) :
    p ∈ solve (buildTrie ws) board ↔
      (p ≠ [] ∧ isWordPath (buildTrie ws) board p = true) :=
  solve_mem_iff_wordPath (buildTrie ws) board p

theorem C1_witness :
    bAlpha.cells.length = 16
    ∧ (([⟨0⟩, ⟨4⟩] : Path) ∈ solve (buildTrie [['a', 'e']]) bAlpha ↔
        (([⟨0⟩, ⟨4⟩] : Path) ≠ []
         ∧ isWordPath (buildTrie [['a', 'e']]) bAlpha [⟨0⟩, ⟨4⟩] = true)) :=
  ⟨rfl, C1_solve_exact_paths [['a', 'e']] bAlpha rfl [⟨0⟩, ⟨4⟩]⟩

/-- C1 counterexample: insert the empty word, so the root is terminal. The
empty sequence of cells is pairwise distinct, consecutively adjacent and
spells a stored word (the empty one), yet solve never returns it. -/
theorem C1_counterexample :
    isWordPath (buildTrie [[]]) bAlpha [] = true
    ∧ ¬ (([] : Path) ∈ solve (buildTrie [[]]) bAlpha) := by
  constructor
  · decide
  · decide

/-- C6: every result of solve, hence every completed search branch, has at
most W*H = 16 steps; termination itself is by construction of the model. -/
theorem C6_branch_length_bound (root : TrieNode) (board : RuzzleBoard)
    (hb : board.cells.length = 16) :
    (solve root board).all (fun p => decide (p.length ≤ 16)) = true := by
  rw [List.all_eq_true]
  intro p hp
  rw [decide_eq_true_eq]
  obtain ⟨hne, hwp⟩ := (solve_mem_iff_wordPath root board p).mp hp
  rw [isWordPath] at hwp
  simp only [Bool.and_eq_true, decide_eq_true_eq] at hwp
  obtain ⟨⟨⟨hbounds, hnd⟩, _⟩, _⟩ := hwp
  exact nodup_bounded_length_le p hnd hbounds

theorem C6_witness :
    (solve (buildTrie [['a', 'e']]) bAlpha).all
      (fun p => decide (p.length ≤ 16)) = true :=
  C6_branch_length_bound (buildTrie [['a', 'e']]) bAlpha rfl

/-- C10: every result of solve is nonempty and starts at a cell whose letter
labels a root-level child; in particular, even for a trie whose root is
terminal because the empty word was inserted, the empty path is never a
result. -/
theorem C10_no_empty_result (root : TrieNode) (board : RuzzleBoard) :
    (solve root board).all
      (fun p =>
        match p with
        | [] => false
        | i :: _ => (root.find_in_children (board.cellAt i)).isSome) = true := by
  rw [List.all_eq_true]
  intro p hp
  obtain ⟨idx, _, child, hfind, hq⟩ := (solve_mem root board p).mp hp
  obtain ⟨rest, rfl, _⟩ := (dfs_mem board child (maskFromU16 0) idx [] p).mp hq
  simp [hfind]

end Ruzzle
